import Mathlib

/-!
Verification of the GATT connection transport (`src/lib/transport/ble/gatt-connection.js`).

The JavaScript class `GattConnection` is embedded shallowly:

* byte buffers become `List Nat`;
* the libsodium AEAD cipher is an external collaborator, so it is a parameter
  (a structure of an `encrypt` and a `decrypt` function);
* asynchronous callbacks become explicit outcome values: a promise outcome is
  `Option (Except Err α)`, with `none` standing for a promise that never
  settles;
* the connection's mutable fields (`state`, the two nonce counters, the
  promise chain `currentOperation`) are threaded explicitly.
-/

set_option maxRecDepth 8000

namespace Gatt

/-- Callback errors, modelled as strings. -/
abbrev Err := String

/-- The `State` enum of the source (lines 11-15). -/
inductive ConnState where
  | disconnected
  | connecting
  | connected
deriving DecidableEq

/-- Calls made on the peripheral handle during `connect()`. -/
inductive PeriphCall where
  | connectCall
  | disconnectCall
deriving DecidableEq

/-- `connect()` (source lines 54-88).  Resolves immediately when the state is
CONNECTED.  Otherwise, when the state is not DISCONNECTED it first calls
`peripheral.disconnect` (remaining in the old state if that errors), then sets
CONNECTING, calls `peripheral.connect`, and sets CONNECTED on success.
`dres` and `cres` are the callback results the peripheral would report for
`disconnect` and `connect`.  Returns the final state, the list of peripheral
calls issued, and the promise outcome. -/
def connect (st : ConnState) (dres cres : Except Err Unit) :
    ConnState × List PeriphCall × Except Err Unit :=
  if st = .connected then
    (st, [], .ok ())
  else if st ≠ .disconnected then
    match dres with
    | .error e => (st, [.disconnectCall], .error e)
    | .ok _ =>
      match cres with
      | .error e => (.connecting, [.disconnectCall, .connectCall], .error e)
      | .ok _ => (.connected, [.disconnectCall, .connectCall], .ok ())
  else
    match cres with
    | .error e => (.connecting, [.connectCall], .error e)
    | .ok _ => (.connected, [.connectCall], .ok ())

/-- Little-endian 4-byte encoding, as `Buffer.writeUInt32LE` stores its value. -/
def uint32LE (c : Nat) : List Nat :=
  [c % 256, c / 256 % 256, c / 65536 % 256, c / 16777216 % 256]

/-- `buf.writeUInt32LE(value, offset)` on a byte list. -/
def writeUInt32LE (buf : List Nat) (value offset : Nat) : List Nat :=
  buf.take offset ++ uint32LE value ++ buf.drop (offset + 4)

/-- The nonce built at source lines 161-162 and 194-195: `Buffer.alloc(12)`
followed by `writeUInt32LE(counter, 4)`. -/
def writeNonce (c : Nat) : List Nat :=
  writeUInt32LE (List.replicate 12 0) c 4

/-- Interface of the external AEAD cipher (libsodium
`crypto_aead_chacha20poly1305_ietf_*`): `encrypt key nonce plaintext` returns
the ciphertext, `decrypt key nonce ciphertext` returns the plaintext or `none`
on authentication failure (the thrown exception). -/
structure AEAD where
  encrypt : List Nat → List Nat → List Nat → List Nat
  decrypt : List Nat → List Nat → List Nat → Option (List Nat)

/-- The session key pair set by `setSessionKeys`. -/
structure SessionKeys where
  ControllerToAccessoryKey : List Nat
  AccessoryToControllerKey : List Nat

/-- The two per-direction nonce counters of the connection
(`c2aCounter` and `a2cCounter`, source lines 27-28). -/
structure Counters where
  c2aCounter : Nat
  a2cCounter : Nat
deriving DecidableEq

/-- The inner `while` loop of `_encryptPdus` (source lines 160-178) on one PDU:
repeatedly slice `frameLength = min(remaining, 496)` bytes and encrypt the
slice under the nonce of the post-incremented c2a counter. -/
def encryptOnePdu (aead : AEAD) (key : List Nat) (c : Nat) (pdu : List Nat) :
    List (List Nat) × Nat :=
  if h : pdu = [] then ([], c)
  else
    let frameLength := min pdu.length 496
    let frame := aead.encrypt key (writeNonce c) (pdu.take frameLength)
    let rest := encryptOnePdu aead key (c + 1) (pdu.drop frameLength)
    (frame :: rest.1, rest.2)
termination_by pdu.length
decreasing_by
  have hpos : 0 < pdu.length := List.length_pos.mpr h
  simp only [List.length_drop]
  omega

/-- `_encryptPdus` (source lines 154-182): the outer `for` loop over the PDU
list, threading the c2a counter. -/
def encryptPdus (aead : AEAD) (key : List Nat) : Nat → List (List Nat) → List (List Nat) × Nat
  | c, [] => ([], c)
  | c, pdu :: rest =>
    let first := encryptOnePdu aead key c pdu
    let more := encryptPdus aead key first.2 rest
    (first.1 ++ more.1, more.2)

/-- `_decryptPdus` (source lines 190-215): each frame consumes one a2c counter
value (the post-increment happens before the `try`); a frame failing
authentication is silently skipped (`catch` is a no-op). -/
def decryptPdus (aead : AEAD) (key : List Nat) : Nat → List (List Nat) → List (List Nat) × Nat
  | c, [] => ([], c)
  | c, pdu :: rest =>
    let d := aead.decrypt key (writeNonce c) pdu
    let more := decryptPdus aead key (c + 1) rest
    match d with
    | some data => (data :: more.1, more.2)
    | none => (more.1, more.2)

/-- `_encryptPdus` viewed as a method on the connection's counter state: it
reads and writes only `c2aCounter` and uses only the controller-to-accessory
key. -/
def encryptPdusOn (aead : AEAD) (ks : SessionKeys) (cs : Counters)
    (pdus : List (List Nat)) : List (List Nat) × Counters :=
  let r := encryptPdus aead ks.ControllerToAccessoryKey cs.c2aCounter pdus
  (r.1, { cs with c2aCounter := r.2 })

/-- `_decryptPdus` viewed as a method on the connection's counter state: it
reads and writes only `a2cCounter` and uses only the accessory-to-controller
key. -/
def decryptPdusOn (aead : AEAD) (ks : SessionKeys) (cs : Counters)
    (pdus : List (List Nat)) : List (List Nat) × Counters :=
  let r := decryptPdus aead ks.AccessoryToControllerKey cs.a2cCounter pdus
  (r.1, { cs with a2cCounter := r.2 })

/-- The plaintext chunk boundaries produced by the slicing loop of
`_encryptPdus` for one PDU. -/
def chunkPdu (pdu : List Nat) : List (List Nat) :=
  if h : pdu = [] then []
  else
    pdu.take (min pdu.length 496) :: chunkPdu (pdu.drop (min pdu.length 496))
termination_by pdu.length
decreasing_by
  have hpos : 0 < pdu.length := List.length_pos.mpr h
  simp only [List.length_drop]
  omega

/-- All plaintext chunks of a PDU list, in write order. -/
def flatChunks (pdus : List (List Nat)) : List (List Nat) :=
  (pdus.map chunkPdu).flatten

/-- Sequential AEAD encryption of a list of plaintext chunks, one counter value
per chunk. -/
def encChunks (aead : AEAD) (key : List Nat) : Nat → List (List Nat) → List (List Nat) × Nat
  | c, [] => ([], c)
  | c, ch :: rest =>
    let more := encChunks aead key (c + 1) rest
    (aead.encrypt key (writeNonce c) ch :: more.1, more.2)

theorem chunkPdu_flatten (pdu : List Nat) : (chunkPdu pdu).flatten = pdu := by
  induction pdu using chunkPdu.induct with
  | case1 => rw [chunkPdu]; simp
  | case2 p h ih =>
    rw [chunkPdu]
    simp only [dif_neg h, List.flatten_cons, ih]
    exact List.take_append_drop _ _

theorem chunkPdu_length_le (pdu : List Nat) :
    ∀ ch ∈ chunkPdu pdu, ch.length ≤ 496 := by
  induction pdu using chunkPdu.induct with
  | case1 => rw [chunkPdu]; simp
  | case2 p h ih =>
    rw [chunkPdu]
    simp only [dif_neg h, List.mem_cons]
    rintro ch (rfl | hch)
    · simp only [List.length_take]
      omega
    · exact ih ch hch

theorem chunkPdu_nil : chunkPdu [] = [] := by
  rw [chunkPdu]; simp

theorem chunkPdu_of_short (pdu : List Nat) (hne : pdu ≠ []) (hle : pdu.length ≤ 496) :
    chunkPdu pdu = [pdu] := by
  rw [chunkPdu]
  have hmin : min pdu.length 496 = pdu.length := by omega
  simp [dif_neg hne, hmin, chunkPdu_nil]

theorem encryptOnePdu_eq_encChunks (aead : AEAD) (key : List Nat) (c : Nat)
    (pdu : List Nat) :
    encryptOnePdu aead key c pdu = encChunks aead key c (chunkPdu pdu) := by
  induction pdu using chunkPdu.induct generalizing c with
  | case1 => rw [encryptOnePdu, chunkPdu]; simp [encChunks]
  | case2 p h ih =>
    rw [encryptOnePdu, chunkPdu]
    simp only [dif_neg h, encChunks, ih]

theorem encChunks_append (aead : AEAD) (key : List Nat) (c : Nat)
    (xs ys : List (List Nat)) :
    encChunks aead key c (xs ++ ys) =
      ((encChunks aead key c xs).1 ++
        (encChunks aead key (encChunks aead key c xs).2 ys).1,
       (encChunks aead key (encChunks aead key c xs).2 ys).2) := by
  induction xs generalizing c with
  | nil => simp [encChunks]
  | cons x xs ih => simp [encChunks, ih]

theorem encChunks_counter (aead : AEAD) (key : List Nat) (c : Nat)
    (cs : List (List Nat)) :
    (encChunks aead key c cs).2 = c + cs.length := by
  induction cs generalizing c with
  | nil => simp [encChunks]
  | cons x xs ih => simp [encChunks, ih]; omega

theorem encryptPdus_eq_encChunks (aead : AEAD) (key : List Nat) (c : Nat)
    (pdus : List (List Nat)) :
    encryptPdus aead key c pdus = encChunks aead key c (flatChunks pdus) := by
  induction pdus generalizing c with
  | nil => simp [encryptPdus, flatChunks, encChunks]
  | cons p ps ih =>
    simp only [encryptPdus, flatChunks, List.map_cons, List.flatten_cons]
    rw [encChunks_append, encryptOnePdu_eq_encChunks, ih]
    simp only [flatChunks]

theorem encChunks_frames (aead : AEAD) (key : List Nat) (c : Nat)
    (cs : List (List Nat)) :
    (encChunks aead key c cs).1 =
      List.zipWith (fun i ch => aead.encrypt key (writeNonce i) ch)
        (List.range' c cs.length) cs := by
  induction cs generalizing c with
  | nil => simp [encChunks]
  | cons x xs ih =>
    simp only [encChunks, List.length_cons, List.range'_succ, List.zipWith_cons_cons, ih]

theorem decryptPdus_counter (aead : AEAD) (key : List Nat) (c : Nat)
    (frames : List (List Nat)) :
    (decryptPdus aead key c frames).2 = c + frames.length := by
  induction frames generalizing c with
  | nil => simp [decryptPdus]
  | cons f fs ih =>
    simp only [decryptPdus]
    cases aead.decrypt key (writeNonce c) f <;> simp [ih] <;> omega

theorem decryptPdus_append (aead : AEAD) (key : List Nat) (c : Nat)
    (xs ys : List (List Nat)) :
    (decryptPdus aead key c (xs ++ ys)).1 =
      (decryptPdus aead key c xs).1 ++
        (decryptPdus aead key (c + xs.length) ys).1 := by
  induction xs generalizing c with
  | nil => simp [decryptPdus]
  | cons x xs ih =>
    simp only [List.cons_append, decryptPdus]
    cases aead.decrypt key (writeNonce c) x <;>
      simp [ih, Nat.add_assoc, Nat.add_comm 1 xs.length]

theorem flatChunks_flatten (pdus : List (List Nat)) :
    (flatChunks pdus).flatten = pdus.flatten := by
  induction pdus with
  | nil => simp [flatChunks]
  | cons p ps ih =>
    simp only [flatChunks, List.map_cons, List.flatten_cons, List.flatten_append] at *
    rw [ih, chunkPdu_flatten]

theorem decrypt_encChunks (aead : AEAD) (key : List Nat) (cs : List (List Nat))
    (c : Nat)
    (h : ∀ i, i < cs.length →
      aead.decrypt key (writeNonce (c + i))
        (aead.encrypt key (writeNonce (c + i)) (cs.getD i [])) =
      some (cs.getD i [])) :
    decryptPdus aead key c (encChunks aead key c cs).1 = (cs, c + cs.length) := by
  induction cs generalizing c with
  | nil => simp [encChunks, decryptPdus]
  | cons x xs ih =>
    have h0 := h 0 (by simp)
    simp only [Nat.add_zero, List.getD_cons_zero] at h0
    have htail : ∀ i, i < xs.length →
        aead.decrypt key (writeNonce (c + 1 + i))
          (aead.encrypt key (writeNonce (c + 1 + i)) (xs.getD i [])) =
        some (xs.getD i []) := by
      intro i hi
      have := h (i + 1) (by simp; omega)
      simpa [Nat.add_assoc, Nat.add_comm 1 i] using this
    have ihx := ih (c + 1) htail
    simp only [encChunks, decryptPdus, h0, ihx, List.length_cons]
    have harith : c + 1 + xs.length = c + (xs.length + 1) := by omega
    rw [harith]

theorem decryptPdus_frames (aead : AEAD) (key : List Nat) (c : Nat)
    (frames : List (List Nat)) :
    (decryptPdus aead key c frames).1 =
      (List.zipWith (fun i f => aead.decrypt key (writeNonce i) f)
        (List.range' c frames.length) frames).reduceOption := by
  induction frames generalizing c with
  | nil => simp [decryptPdus]
  | cons f fs ih =>
    simp only [decryptPdus, List.length_cons, List.range'_succ,
      List.zipWith_cons_cons]
    cases hd : aead.decrypt key (writeNonce c) f <;>
      simp [hd, ih, List.reduceOption_cons_of_some, List.reduceOption_cons_of_none]

/-- A concrete AEAD instance whose encryption is the identity; used to observe
the plaintext frames the fragmentation loop produces. -/
def idAEAD : AEAD where
  encrypt := fun _ _ pt => pt
  decrypt := fun _ _ ct => some ct

/-- A concrete AEAD instance appending a 16-byte all-zero tag; decryption
authenticates by checking the tag and fails on ciphertexts shorter than the
tag or with a wrong tag. -/
def tagAEAD : AEAD where
  encrypt := fun _ _ pt => pt ++ List.replicate 16 0
  decrypt := fun _ _ ct =>
    if ct.length < 16 then none
    else if ct.drop (ct.length - 16) = List.replicate 16 0 then
      some (ct.take (ct.length - 16))
    else none

/-- C4: a frame whose AEAD decryption fails is dropped from the decrypted
result without any error (`_decryptPdus` stays total and keeps decrypting the
surrounding frames), and the inbound counter advances by one for the failed
frame exactly as for a successful one: the frames after it are decrypted at
the same counter values as if the bad frame had decrypted. -/
theorem decrypt_drops_failed_frame (aead : AEAD) (key : List Nat) (k : Nat)
    (pre post : List (List Nat)) (bad : List Nat)
    (hfail : aead.decrypt key (writeNonce (k + pre.length)) bad = none) :
    (decryptPdus aead key k (pre ++ bad :: post)).1 =
      (decryptPdus aead key k pre).1 ++
        (decryptPdus aead key (k + pre.length + 1) post).1 ∧
    (decryptPdus aead key k (pre ++ bad :: post)).2 =
      k + pre.length + 1 + post.length := by
  constructor
  · rw [decryptPdus_append]
    simp only [decryptPdus, hfail]
  · rw [decryptPdus_counter]
    simp only [List.length_append, List.length_cons]
    omega

theorem decrypt_drops_failed_frame_witness :
    tagAEAD.decrypt [7] (writeNonce (0 + [List.replicate 16 0].length)) [9] =
      none ∧
    ((decryptPdus tagAEAD [7] 0
        ([List.replicate 16 0] ++ [9] :: [[5] ++ List.replicate 16 0])).1 =
      (decryptPdus tagAEAD [7] 0 [List.replicate 16 0]).1 ++
        (decryptPdus tagAEAD [7] (0 + [List.replicate 16 0].length + 1)
          [[5] ++ List.replicate 16 0]).1 ∧
    (decryptPdus tagAEAD [7] 0
        ([List.replicate 16 0] ++ [9] :: [[5] ++ List.replicate 16 0])).2 =
      0 + [List.replicate 16 0].length + 1 + [[5] ++ List.replicate 16 0].length) :=
  ⟨by decide, decrypt_drops_failed_frame tagAEAD [7] 0 _ _ _ (by decide)⟩

/-- C5: every nonce is 12 bytes, all zero except a little-endian 4-byte
counter at offset 4; the frames produced by one `_encryptPdus` call use
exactly the consecutive counter values `c2a, c2a+1, …, c2a+N-1` (a list with
no repeats), the outbound counter advances by the number of frames while the
inbound counter is untouched, and `_decryptPdus` decrypts its frames under the
consecutive inbound counter values `a2c, a2c+1, …`, advancing only the
inbound counter and leaving the outbound one unchanged. -/
theorem nonce_structure_and_counters (aead : AEAD) (ks : SessionKeys)
    (cs : Counters) (pdus frames : List (List Nat)) :
    writeNonce cs.c2aCounter =
      [0, 0, 0, 0] ++ uint32LE cs.c2aCounter ++ [0, 0, 0, 0] ∧
    (writeNonce cs.c2aCounter).length = 12 ∧
    (encryptPdusOn aead ks cs pdus).1 =
      List.zipWith
        (fun i ch => aead.encrypt ks.ControllerToAccessoryKey (writeNonce i) ch)
        (List.range' cs.c2aCounter (flatChunks pdus).length) (flatChunks pdus) ∧
    (encryptPdusOn aead ks cs pdus).2 =
      { c2aCounter := cs.c2aCounter + (flatChunks pdus).length,
        a2cCounter := cs.a2cCounter } ∧
    (decryptPdusOn aead ks cs frames).1 =
      (List.zipWith
        (fun i f => aead.decrypt ks.AccessoryToControllerKey (writeNonce i) f)
        (List.range' cs.a2cCounter frames.length) frames).reduceOption ∧
    (decryptPdusOn aead ks cs frames).2.c2aCounter = cs.c2aCounter ∧
    (decryptPdusOn aead ks cs frames).2.a2cCounter =
      cs.a2cCounter + frames.length ∧
    (List.range' cs.c2aCounter (flatChunks pdus).length).Nodup := by
  refine ⟨?_, ?_, ?_, ?_, ?_, ?_, ?_, ?_⟩
  · simp [writeNonce, writeUInt32LE, List.take_replicate, List.drop_replicate]
  · simp [writeNonce, writeUInt32LE, uint32LE]
  · simp only [encryptPdusOn]
    rw [encryptPdus_eq_encChunks, encChunks_frames]
  · simp only [encryptPdusOn]
    rw [encryptPdus_eq_encChunks, encChunks_counter]
  · simp only [decryptPdusOn]
    exact decryptPdus_frames aead ks.AccessoryToControllerKey cs.a2cCounter frames
  · simp [decryptPdusOn]
  · simp [decryptPdusOn, decryptPdus_counter]
  · exact List.nodup_range' _ _

/-- C6: the fragmentation performed by `_encryptPdus` produces only plaintext
chunks of at most 496 bytes, each encrypted in order under consecutive
nonces; a PDU of exactly 496 bytes yields one chunk, a PDU of 497 bytes
yields two chunks of 496 and 1 bytes, and concatenating the chunks restores
the PDU byte order. -/
theorem fragmentation_bound (aead : AEAD) (key : List Nat) (c : Nat)
    (p : List Nat) :
    (∀ ch ∈ chunkPdu p, ch.length ≤ 496) ∧
    (encryptPdus aead key c [p]).1 =
      List.zipWith (fun i ch => aead.encrypt key (writeNonce i) ch)
        (List.range' c (chunkPdu p).length) (chunkPdu p) ∧
    (p.length = 496 → chunkPdu p = [p]) ∧
    (p.length = 497 → (chunkPdu p).map List.length = [496, 1]) ∧
    (chunkPdu p).flatten = p := by
  refine ⟨chunkPdu_length_le p, ?_, ?_, ?_, chunkPdu_flatten p⟩
  · rw [encryptPdus_eq_encChunks, encChunks_frames]
    simp [flatChunks]
  · intro h496
    exact chunkPdu_of_short p (by intro hnil; simp [hnil] at h496) (by omega)
  · intro h497
    have hne : p ≠ [] := by intro hnil; simp [hnil] at h497
    rw [chunkPdu]
    have hmin : min p.length 496 = 496 := by omega
    have hdrop : (p.drop 496).length = 1 := by simp [List.length_drop]; omega
    have hdne : p.drop 496 ≠ [] := by
      intro hnil; rw [hnil] at hdrop; simp at hdrop
    rw [dif_neg hne, hmin, chunkPdu_of_short (p.drop 496) hdne (by omega)]
    simp only [List.map_cons, List.map_nil, List.length_take, hdrop]
    congr 1
    omega

theorem fragmentation_bound_witness :
    ((List.replicate 496 3).length = 496 ∧
      chunkPdu (List.replicate 496 3) = [List.replicate 496 3]) ∧
    ((List.replicate 497 3).length = 497 ∧
      (chunkPdu (List.replicate 497 3)).map List.length = [496, 1]) :=
  ⟨⟨List.length_replicate 496 3,
    (fragmentation_bound idAEAD [] 0 (List.replicate 496 3)).2.2.1
      (List.length_replicate 496 3)⟩,
   ⟨List.length_replicate 497 3,
    (fragmentation_bound idAEAD [] 0 (List.replicate 497 3)).2.2.2.1
      (List.length_replicate 497 3)⟩⟩

/-- C7: encrypt-then-decrypt round trip: with matching keys and both direction
counters at the same starting value, decrypting the frames produced by
`_encryptPdus` yields exactly the plaintext chunks of the fragmentation (the
same frame boundaries), whose concatenation is the original PDU bytes. -/
theorem encrypt_decrypt_roundtrip (aead : AEAD) (ks : SessionKeys) (k : Nat)
    (pdus : List (List Nat))
    (hk : ks.AccessoryToControllerKey = ks.ControllerToAccessoryKey)
    (hrt : ∀ i, i < (flatChunks pdus).length →
      aead.decrypt ks.ControllerToAccessoryKey (writeNonce (k + i))
        (aead.encrypt ks.ControllerToAccessoryKey (writeNonce (k + i))
          ((flatChunks pdus).getD i [])) =
      some ((flatChunks pdus).getD i [])) :
    (decryptPdus aead ks.AccessoryToControllerKey k
        (encryptPdus aead ks.ControllerToAccessoryKey k pdus).1).1 =
      flatChunks pdus ∧
    ((decryptPdus aead ks.AccessoryToControllerKey k
        (encryptPdus aead ks.ControllerToAccessoryKey k pdus).1).1).flatten =
      pdus.flatten := by
  rw [hk, encryptPdus_eq_encChunks,
    decrypt_encChunks aead ks.ControllerToAccessoryKey (flatChunks pdus) k hrt]
  exact ⟨rfl, flatChunks_flatten pdus⟩

/-- The session key pair used in concrete round-trip evaluations. -/
def ks7 : SessionKeys := ⟨[7], [7]⟩

theorem flatChunks_small : flatChunks [[1, 2, 3], [4]] = [[1, 2, 3], [4]] := by
  rw [flatChunks]
  simp only [List.map_cons, List.map_nil]
  rw [chunkPdu_of_short [1, 2, 3] (by simp) (by simp),
    chunkPdu_of_short [4] (by simp) (by simp)]
  simp

theorem encrypt_decrypt_roundtrip_witness :
    ks7.AccessoryToControllerKey = ks7.ControllerToAccessoryKey ∧
    (decryptPdus tagAEAD ks7.AccessoryToControllerKey 0
        (encryptPdus tagAEAD ks7.ControllerToAccessoryKey 0 [[1, 2, 3], [4]]).1).1 =
      flatChunks [[1, 2, 3], [4]] :=
  ⟨rfl,
   (encrypt_decrypt_roundtrip tagAEAD ks7 0 [[1, 2, 3], [4]] rfl
     (by rw [flatChunks_small]; decide)).1⟩

/-- Settlement status of the promise chain `currentOperation`. -/
inductive Settled where
  | pending
  | resolvedOk
  | rejected
deriving DecidableEq

/-- Outcome of a promise: `none` when it never settles. -/
abbrev POutcome (α : Type) := Option (Except Err α)

/-- `_queueOperation` (source lines 32-37):
`this.currentOperation.then(() => op()).catch(() => op())`.  `op n` is the
outcome of the (n+1)-th invocation of `op`.  When the prior chain resolved,
`op` runs in the `then` handler and, only if that invocation rejects, runs
once more in the `catch` handler; when the prior chain rejected, the `then`
handler is skipped and `op` runs exactly once, in the `catch` handler.
Returns how many times `op` is invoked and the settlement of the new chain
tail (which is also what `_queueOperation`'s caller receives). -/
def queueOperation (prev : Settled) (op : Nat → POutcome α) : Nat × POutcome α :=
  match prev with
  | .pending => (0, none)
  | .resolvedOk =>
    match op 0 with
    | none => (1, none)
    | some (.ok v) => (1, some (.ok v))
    | some (.error _) => (2, op 1)
  | .rejected => (1, op 0)

/-- The settlement status a promise outcome leaves the chain in. -/
def settledOf (r : POutcome α) : Settled :=
  match r with
  | none => .pending
  | some (.ok _) => .resolvedOk
  | some (.error _) => .rejected

/-- Results handed to the `discoverSomeServicesAndCharacteristics` callback
(source line 129): an optional error, the resolved services and the resolved
characteristics. -/
structure DiscoveryResult where
  err : Option Err
  services : List Nat
  characteristics : List Nat

/-- One invocation of the operation enqueued by `findAndWriteCharacteristic`
(source lines 123-145): `connect()`, then discovery; the callback rejects on a
discovery error or when zero services or characteristics resolve, and in the
success path evaluates `this.writeCharacteristic(characteristics[0], pdus)`
as the callback's return value — which noble discards — without ever calling
`resolve`, so the promise never settles. -/
def findAndWriteAttempt (connectRes : Except Err Unit) (d : DiscoveryResult) :
    POutcome (List (List Nat)) :=
  match connectRes with
  | .error e => some (.error e)
  | .ok _ =>
    match d.err with
    | some e => some (.error e)
    | none =>
      if d.services.length = 0 ∨ d.characteristics.length = 0 then
        some (.error "Characteristic not found")
      else
        none

/-- `_readCharacteristicInner` (source lines 260-277), driven by the sequence
of results the `characteristic.read` callback will deliver.  A read error
rejects at once; a non-empty read is accumulated and the loop recurses; an
empty read ends the loop, decrypting the accumulator only when session keys
are set.  `none` when the supplied reads are exhausted before an error or an
empty read (the code would still be waiting on the next callback).  Returns
the settlement and the final a2c counter. -/
def readInner (aead : AEAD) (keys : Option SessionKeys) (a2c : Nat)
    (acc : List (List Nat)) :
    List (Except Err (List Nat)) → POutcome (List (List Nat)) × Nat
  | [] => (none, a2c)
  | r :: rest =>
    match r with
    | .error e => (some (.error e), a2c)
    | .ok data =>
      if 0 < data.length then
        readInner aead keys a2c (acc ++ [data]) rest
      else
        match keys with
        | some ks =>
          let d := decryptPdus aead ks.AccessoryToControllerKey a2c acc
          (some (.ok d.1), d.2)
        | none => (some (.ok acc), a2c)

/-- The first error among the write acknowledgments, which is what
`Promise.all` over the per-frame writes rejects with. -/
def firstWriteError (wr : List Nat → Except Err Unit) : List (List Nat) → Option Err
  | [] => none
  | f :: rest =>
    match wr f with
    | .error e => some e
    | .ok _ => firstWriteError wr rest

/-- The operation enqueued by `writeCharacteristic` (source lines 225-251):
when session keys are set the PDUs are first encrypted (and thereby
fragmented) by `_encryptPdus`, otherwise the PDUs are written as given; every
frame is written (`Promise.all` over `characteristic.write`), and if all
writes acknowledge, the read direction is drained by
`_readCharacteristicInner`.  `wr` gives each write's acknowledgment and
`reads` the read callback results.  Returns the frames written, the
settlement, and the final counters. -/
def writeCharacteristicOp (aead : AEAD) (keys : Option SessionKeys)
    (cs : Counters) (wr : List Nat → Except Err Unit)
    (reads : List (Except Err (List Nat))) (pdus : List (List Nat)) :
    List (List Nat) × POutcome (List (List Nat)) × Counters :=
  let enc :=
    match keys with
    | some ks => encryptPdus aead ks.ControllerToAccessoryKey cs.c2aCounter pdus
    | none => (pdus, cs.c2aCounter)
  match firstWriteError wr enc.1 with
  | some e => (enc.1, some (.error e), { cs with c2aCounter := enc.2 })
  | none =>
    let r := readInner aead keys cs.a2cCounter [] reads
    (enc.1, r.1, { c2aCounter := enc.2, a2cCounter := r.2 })

/-- C9: calling `connect()` while CONNECTED resolves immediately with no
peripheral calls and leaves the state CONNECTED; hence a second `connect()`
also performs zero peripheral calls. -/
theorem connect_idempotent_when_connected (d1 c1 d2 c2 : Except Err Unit) :
    connect .connected d1 c1 = (.connected, [], .ok ()) ∧
    (connect (connect .connected d1 c1).1 d2 c2).2.1 = [] := by
  refine ⟨by simp [connect], ?_⟩
  simp [connect]

/-- C1: in the success path (connection up, discovery resolving at least one
service and one characteristic) the promise returned by
`findAndWriteCharacteristic` never settles: the callback returns
`this.writeCharacteristic(...)` instead of resolving with it, so the caller
never receives the write-then-drain result, contrary to the method's own
documentation. -/
theorem findAndWrite_success_never_settles :
    findAndWriteAttempt (.ok ()) ⟨none, [1], [2]⟩ = none ∧
    queueOperation .resolvedOk
        (fun _ => findAndWriteAttempt (.ok ()) ⟨none, [1], [2]⟩) =
      (1, none) :=
  ⟨rfl, rfl⟩

/-- C2 counterexample: an operation enqueued after a failed predecessor whose
first invocation fails is invoked exactly once, not retried — refuting
"exactly one retry regardless of whether the previously enqueued operation
succeeded or failed". -/
theorem queueOperation_no_retry_after_failed_predecessor :
    (queueOperation .rejected
        (fun _ => (some (.error "fail") : POutcome Unit))).1 = 1 ∧
    (queueOperation .rejected
        (fun _ => (some (.error "fail") : POutcome Unit))).1 ≠ 2 := by
  decide

/-- C2 amended: when the prior chain settled successfully, an operation whose
first invocation fails is invoked exactly once more and the retry's outcome
propagates to the caller; when the prior chain failed, the operation runs
exactly once (as the rejection handler) and its outcome propagates with no
retry.  In both cases the chain settles, so the next enqueued operation still
runs (exactly once after a failure). -/
theorem queueOperation_retry_discipline (op op2 : Nat → POutcome (List (List Nat)))
    (e : Err) (hfail : op 0 = some (.error e)) :
    (queueOperation .resolvedOk op).1 = 2 ∧
    (queueOperation .resolvedOk op).2 = op 1 ∧
    (queueOperation .rejected op).1 = 1 ∧
    (queueOperation .rejected op).2 = op 0 ∧
    (queueOperation .rejected op2).1 = 1 := by
  simp [queueOperation, hfail]

theorem queueOperation_retry_discipline_witness :
    (fun _ => (some (.error "x") : POutcome (List (List Nat)))) 0 =
      some (.error "x") ∧
    ((queueOperation .resolvedOk
        (fun _ => (some (.error "x") : POutcome (List (List Nat))))).1 = 2 ∧
     (queueOperation .resolvedOk
        (fun _ => (some (.error "x") : POutcome (List (List Nat))))).2 =
       (fun _ => (some (.error "x") : POutcome (List (List Nat)))) 1 ∧
     (queueOperation .rejected
        (fun _ => (some (.error "x") : POutcome (List (List Nat))))).1 = 1 ∧
     (queueOperation .rejected
        (fun _ => (some (.error "x") : POutcome (List (List Nat))))).2 =
       (fun _ => (some (.error "x") : POutcome (List (List Nat)))) 0 ∧
     (queueOperation .rejected
        (fun _ => (some (.error "x") : POutcome (List (List Nat))))).1 = 1) :=
  ⟨rfl, queueOperation_retry_discipline _ _ "x" rfl⟩

/-- C8 counterexample: with a successfully settled prior chain, a discovery
reporting zero services makes the enqueued operation reject, and the
sequencer's `catch` handler re-invokes the whole operation once before the
not-found error surfaces — refuting "surfaced immediately, without the
sequencer's automatic retry re-invoking the operation". -/
theorem discovery_failure_is_retried :
    (queueOperation .resolvedOk
        (fun _ => findAndWriteAttempt (.ok ()) ⟨none, [], []⟩)).1 = 2 ∧
    (queueOperation .resolvedOk
        (fun _ => findAndWriteAttempt (.ok ()) ⟨none, [], []⟩)).1 ≠ 1 ∧
    (queueOperation .resolvedOk
        (fun _ => findAndWriteAttempt (.ok ()) ⟨none, [], []⟩)).2 =
      some (.error "Characteristic not found") :=
  ⟨rfl, by decide, rfl⟩

/-- C8 amended: when discovery reports zero services or zero characteristics,
the operation rejects with the not-found error; the sequencer's blind retry
re-invokes the whole operation once, and after the retry also fails the
"Characteristic not found" error is surfaced to the caller. -/
theorem discovery_not_found_retried_then_surfaced (d0 d1 : DiscoveryResult)
    (h0e : d0.err = none) (h1e : d1.err = none)
    (h0 : d0.services.length = 0 ∨ d0.characteristics.length = 0)
    (h1 : d1.services.length = 0 ∨ d1.characteristics.length = 0) :
    queueOperation .resolvedOk
        (fun i => findAndWriteAttempt (.ok ()) (if i = 0 then d0 else d1)) =
      (2, some (.error "Characteristic not found")) := by
  have a0 : findAndWriteAttempt (.ok ()) d0 =
      some (.error "Characteristic not found") := by
    simp only [findAndWriteAttempt, h0e]
    rw [if_pos h0]
  have a1 : findAndWriteAttempt (.ok ()) d1 =
      some (.error "Characteristic not found") := by
    simp only [findAndWriteAttempt, h1e]
    rw [if_pos h1]
  simp [queueOperation, a0, a1]

theorem discovery_not_found_retried_then_surfaced_witness :
    (⟨none, [], []⟩ : DiscoveryResult).err = none ∧
    (⟨none, [], [5]⟩ : DiscoveryResult).err = none ∧
    ((⟨none, [], []⟩ : DiscoveryResult).services.length = 0 ∨
      (⟨none, [], []⟩ : DiscoveryResult).characteristics.length = 0) ∧
    ((⟨none, [], [5]⟩ : DiscoveryResult).services.length = 0 ∨
      (⟨none, [], [5]⟩ : DiscoveryResult).characteristics.length = 0) ∧
    queueOperation .resolvedOk
        (fun i => findAndWriteAttempt (.ok ())
          (if i = 0 then ⟨none, [], []⟩ else ⟨none, [], [5]⟩)) =
      (2, some (.error "Characteristic not found")) :=
  ⟨rfl, rfl, Or.inl rfl, Or.inl rfl,
   discovery_not_found_retried_then_surfaced _ _ rfl rfl (Or.inl rfl) (Or.inl rfl)⟩

theorem readInner_error (aead : AEAD) (keys : Option SessionKeys) (a2c : Nat)
    (acc : List (List Nat)) (datas : List (List Nat)) (e : Err)
    (rest : List (Except Err (List Nat))) (hne : ∀ d ∈ datas, d ≠ []) :
    readInner aead keys a2c acc (datas.map Except.ok ++ Except.error e :: rest) =
      (some (.error e), a2c) := by
  induction datas generalizing acc with
  | nil => simp [readInner]
  | cons d ds ih =>
    have hd : 0 < d.length := List.length_pos.mpr (hne d (by simp))
    simp only [List.map_cons, List.cons_append, readInner, if_pos hd]
    exact ih _ fun x hx => hne x (by simp [hx])

/-- C10: when a read in the drain loop reports an error after any number of
non-empty reads, the drain rejects with that error, delivers no PDUs, attempts
no decryption, and leaves the inbound counter unchanged (decryption only runs
after the terminating empty read). -/
theorem read_error_rejects_without_decryption (aead : AEAD)
    (keys : Option SessionKeys) (a2c : Nat) (datas : List (List Nat)) (e : Err)
    (rest : List (Except Err (List Nat))) (hne : ∀ d ∈ datas, d ≠ []) :
    readInner aead keys a2c [] (datas.map Except.ok ++ Except.error e :: rest) =
      (some (.error e), a2c) :=
  readInner_error aead keys a2c [] datas e rest hne

theorem read_error_rejects_without_decryption_witness :
    (∀ d ∈ [[1]], d ≠ ([] : List Nat)) ∧
    readInner idAEAD none 5 []
        ([[1]].map Except.ok ++ Except.error "boom" :: []) =
      (some (.error "boom"), 5) :=
  ⟨by decide,
   read_error_rejects_without_decryption idAEAD none 5 [[1]] "boom" [] (by decide)⟩

/-- C3 counterexample: with no session keys, `writeCharacteristic` on a single
600-byte PDU issues exactly one raw write of 600 bytes — not two writes of
496 and 104 bytes: fragmentation happens only inside `_encryptPdus`, which is
bypassed in plaintext mode. -/
theorem writeCharacteristic_no_fragmentation_without_keys :
    (writeCharacteristicOp idAEAD none ⟨0, 0⟩ (fun _ => .ok ()) [.ok []]
        [List.replicate 600 0]).1.map List.length = [600] ∧
    (writeCharacteristicOp idAEAD none ⟨0, 0⟩ (fun _ => .ok ()) [.ok []]
        [List.replicate 600 0]).1.map List.length ≠ [496, 104] := by
  have h : (writeCharacteristicOp idAEAD none ⟨0, 0⟩ (fun _ => .ok ()) [.ok []]
      [List.replicate 600 0]).1 = [List.replicate 600 0] := rfl
  rw [h]
  simp [List.length_replicate]

theorem readInner_drain_raw (aead : AEAD) (a2c : Nat) (acc datas : List (List Nat))
    (hne : ∀ d ∈ datas, d ≠ []) :
    readInner aead none a2c acc (datas.map Except.ok ++ [Except.ok []]) =
      (some (.ok (acc ++ datas)), a2c) := by
  induction datas generalizing acc with
  | nil => simp [readInner]
  | cons d ds ih =>
    have hd : 0 < d.length := List.length_pos.mpr (hne d (by simp))
    simp only [List.map_cons, List.cons_append, readInner, if_pos hd]
    have h2 := ih (acc ++ [d]) fun x hx => hne x (by simp [hx])
    rw [List.append_assoc, List.singleton_append] at h2
    exact h2

/-- C3 amended: with no session keys, `writeCharacteristic` writes each PDU
raw and unfragmented — a single 600-byte PDU issues exactly one raw write of
600 bytes — then drains reads until an empty read and returns the raw frames
read as the PDU list, with both nonce counters unchanged. -/
theorem writeCharacteristic_raw_write_and_drain (aead : AEAD)
    (datas : List (List Nat)) (hne : ∀ d ∈ datas, d ≠ []) :
    writeCharacteristicOp aead none ⟨0, 0⟩ (fun _ => .ok ())
        (datas.map Except.ok ++ [Except.ok []]) [List.replicate 600 0] =
      ([List.replicate 600 0], some (.ok datas), ⟨0, 0⟩) := by
  simp only [writeCharacteristicOp]
  rw [show firstWriteError (fun _ => (.ok () : Except Err Unit))
      [List.replicate 600 0] = none from rfl]
  rw [readInner_drain_raw aead 0 [] datas hne]
  simp

theorem writeCharacteristic_raw_write_and_drain_witness :
    (∀ d ∈ [[9, 9]], d ≠ ([] : List Nat)) ∧
    writeCharacteristicOp idAEAD none ⟨0, 0⟩ (fun _ => .ok ())
        ([[9, 9]].map Except.ok ++ [Except.ok []]) [List.replicate 600 0] =
      ([List.replicate 600 0], some (.ok [[9, 9]]), ⟨0, 0⟩) :=
  ⟨by decide, writeCharacteristic_raw_write_and_drain idAEAD [[9, 9]] (by decide)⟩

end Gatt
